import Mathlib

/-!
A shallow embedding of `darglint/parse/cyk.py`: the `CykNode` parse-tree
type with its operations, and the CYK `parse` function, together with
proofs about them.

Modelling conventions:
* Python `int` becomes `Int`; list indices become `Int` where the source
  may produce negative values (Python wraps an index `i` with
  `-len ≤ i < 0` to `len + i`; this wrapping is modelled by `pyIndex`).
* The DP table `P` (a `list` of `list`s of `list`s in the source) becomes
  a total function `Nat → Nat → Nat → Option CykNode`; an out-of-range
  read (which would raise `IndexError` in Python) is modelled as an
  absent entry, and an out-of-range write as a no-op.  All index values
  actually produced by the loops lie in `[-1, n-1]`, where Python's
  wrapping is total, so the model agrees with the source there.
* Generators (`in_order_traverse`, `breadth_first_walk`) become the
  lists of the values they yield.
* The lazily memoized `_line_number_cache` is write-once and recomputed
  from a pure function, so it is modelled by plain recomputation.
-/

/-- The token categories distinguished by this module.  `TokenType` lives
in `darglint/token.py` (outside the parsing core); the spec describes it
as a finite closed set of lexical categories of which `INDENT` and
`NEWLINE` are structural whitespace and `COLON` is the colon category.
`WORD` and `ARGUMENTS` stand for the remaining, undistinguished
categories. -/
inductive TokenType where
  | INDENT
  | NEWLINE
  | COLON
  | WORD
  | ARGUMENTS
deriving DecidableEq, Repr

/-- A lexed token: category, literal text and source line number
(`darglint/token.py`, external to the parsing core). -/
structure Token where
  token_type : TokenType
  value : String
  line_number : Int
deriving DecidableEq, Repr

/-- `WHITESPACE = {TokenType.INDENT, TokenType.NEWLINE}` -/
def WHITESPACE (t : TokenType) : Bool :=
  t == TokenType.INDENT || t == TokenType.NEWLINE

/-- `MAX_TREE_HEIGHT = 300` -/
def MAX_TREE_HEIGHT : Nat := 300

/-- A node for use in a cyk parse (`class CykNode`).  The fields are
exactly the attributes set in `CykNode.__init__`; `weight` stores the
value computed there (see `mkCykNode`). -/
inductive CykNode where
  | node (symbol : String) (lchild : Option CykNode) (rchild : Option CykNode)
         (value : Option Token) (annotations : List String) (weight : Int)

def CykNode.symbol : CykNode → String
  | .node s _ _ _ _ _ => s

def CykNode.lchild : CykNode → Option CykNode
  | .node _ lc _ _ _ _ => lc

def CykNode.rchild : CykNode → Option CykNode
  | .node _ _ rc _ _ _ => rc

def CykNode.value : CykNode → Option Token
  | .node _ _ _ v _ _ => v

def CykNode.annotations : CykNode → List String
  | .node _ _ _ _ a _ => a

def CykNode.weight : CykNode → Int
  | .node _ _ _ _ _ w => w

/-- `CykNode.__init__`: all parameters default to absent (`annotations`
defaults to a fresh empty list in this model, `weight` to `0`).  If the
given `weight` is truthy (non-zero), it is stored; otherwise the stored
weight is `max(0, lchild.weight if lchild else 0, rchild.weight if
rchild else 0)`. -/
def mkCykNode (symbol : String) (lchild : Option CykNode) (rchild : Option CykNode)
    (value : Option Token) (annotations : List String) (weight : Int) : CykNode :=
  if weight ≠ 0 then
    CykNode.node symbol lchild rchild value annotations weight
  else
    CykNode.node symbol lchild rchild value annotations
      (max 0 (max (match lchild with | some l => l.weight | none => 0)
                  (match rchild with | some r => r.weight | none => 0)))

/-- `CykNode.in_order_traverse`: left subtree, then the node itself, then
the right subtree (as the list of yielded nodes). -/
def CykNode.in_order_traverse : CykNode → List CykNode
  | .node s lc rc v a w =>
    (match lc with
     | some l => l.in_order_traverse
     | none => []) ++
    [CykNode.node s lc rc v a w] ++
    (match rc with
     | some r => r.in_order_traverse
     | none => [])

/-- `CykNode.walk`: `yield from self.in_order_traverse()`. -/
def CykNode.walk (t : CykNode) : List CykNode :=
  t.in_order_traverse

/-- The children a node pushes onto the queue in `breadth_first_walk`:
`appendleft(lchild)` happens before `appendleft(rchild)`, so `lchild`
is dequeued first. -/
def childList (t : CykNode) : List CykNode :=
  t.lchild.toList ++ t.rchild.toList

/-- The queue loop of `CykNode.breadth_first_walk`: the deque pops from
the right and appends children on the left, i.e. first-in first-out;
the queue is modelled as a list in dequeue order. -/
def bfwAux : List CykNode → List CykNode
  | [] => []
  | q :: rest => q :: bfwAux (rest ++ childList q)
termination_by qs => (qs.map sizeOf).sum
decreasing_by
  simp [childList]
  cases q with
  | node s lc rc v a w =>
    cases lc <;> cases rc <;> simp [CykNode.lchild, CykNode.rchild, Option.toList] <;> omega

/-- `CykNode.breadth_first_walk`: starts from a queue holding `self`. -/
def CykNode.breadth_first_walk (t : CykNode) : List CykNode :=
  bfwAux [t]

/-- `CykNode.first_instance`: the first node of the breadth-first walk
whose symbol equals the argument, if any. -/
def CykNode.first_instance (t : CykNode) (symbol : String) : Option CykNode :=
  t.breadth_first_walk.find? (fun node => node.symbol == symbol)

/-- `CykNode.contains`: true iff some node of `walk()` has the symbol. -/
def CykNode.contains (t : CykNode) (symbol : String) : Bool :=
  t.walk.any (fun node => node.symbol == symbol)

/-- `CykNode.equals`: returns false on `None`; compares symbols and
values; recurses into `lchild`/`rchild` only when present on `self`. -/
def CykNode.equals : CykNode → Option CykNode → Bool
  | _, none => false
  | .node s lc rc v _ _, some o =>
    if s ≠ o.symbol then false
    else if v ≠ o.value then false
    else if (match lc with
             | some l => !(l.equals o.lchild)
             | none => false) then false
    else if (match rc with
             | some r => !(r.equals o.rchild)
             | none => false) then false
    else true

/-- The tokens of the subtree in in-order: the `value`s of the nodes
yielded by `in_order_traverse` that carry one (the filtering done by
`if node.value:` in `reconstruct_string`). -/
def inOrderTokens (t : CykNode) : List Token :=
  t.in_order_traverse.filterMap (fun node => node.value)

/-- The spacing decision of `reconstruct_string`'s sliding window: the
text appended for the right token `b` following the left token `a` —
`b.value` bare when either token's category is whitespace or `b` is a
colon, otherwise `' ' + b.value`. -/
def sepStr (a b : Token) : String :=
  if WHITESPACE a.token_type || WHITESPACE b.token_type
      || b.token_type == TokenType.COLON then
    b.value
  else
    " " ++ b.value

/-- Appending to a `deque(maxlen=3)`: when full, the oldest (leftmost)
element is discarded. -/
def windowPush (window : List Token) (t : Token) : List Token :=
  if window.length = 3 then window.tail ++ [t] else window ++ [t]

/-- The `while len(window) > 1` loop of `reconstruct_string`: appends the
separator-adjusted second window element, then pulls the next token from
the remaining source, breaking (and returning the final window together
with the accumulated string) when the source is exhausted. -/
def slideWindow : List Token → List Token → String → List Token × String
  | w0 :: w1 :: wrest, rest, acc =>
    let acc2 := acc ++ sepStr w0 w1
    match rest with
    | [] => (w0 :: w1 :: wrest, acc2)
    | t :: ts => slideWindow (windowPush (w0 :: w1 :: wrest) t) ts acc2
  | window, _, acc => (window, acc)

/-- `CykNode.reconstruct_string`: fills a three-token window from the
in-order token sequence, returns `''` when it stays empty, seeds the
result with the first token's text, slides the window over the rest, and
finally flushes the third window slot when the window is full.  The
`strictness` parameter is accepted and never consulted, as in the
source. -/
def CykNode.reconstruct_string (t : CykNode) (strictness : Int) : String :=
  let source := inOrderTokens t
  let window := source.take 3
  let rest := source.drop 3
  match window with
  | [] => ""
  | w0 :: _ =>
    let res := slideWindow window rest w0.value
    match res.1 with
    | [_, b, c] => res.2 ++ sepStr b c
    | _ => res.2

/-- `CykNode._get_line_numbers_cached`: returns the sentinel beyond the
recursion ceiling; a valued node reports its own line twice; otherwise
`leftmost` is the left child's first line (default `-1`), and `rightmost`
is the right child's last line (defaulting to `leftmost`).  The
write-once cache is modelled by pure recomputation. -/
def CykNode.get_line_numbers_cached : CykNode → Nat → Int × Int
  | .node _ lc rc v _ _, recurse =>
    if recurse > MAX_TREE_HEIGHT then (-1, -1)
    else
      match v with
      | some value => (value.line_number, value.line_number)
      | none =>
        let leftmost : Int :=
          match lc with
          | some l => (l.get_line_numbers_cached (recurse + 1)).1
          | none => -1
        let rightmost : Int :=
          match rc with
          | some r => (r.get_line_numbers_cached (recurse + 1)).2
          | none => leftmost
        (leftmost, rightmost)

/-- `CykNode.line_numbers`: the cached recursion started at depth 0. -/
def CykNode.line_numbers (t : CykNode) : Int × Int :=
  t.get_line_numbers_cached 0

/-- A derivation option on the right-hand side of a production
(`darglint/parse/grammar.py`, consumed by this module): the source
distinguishes the two shapes by tuple length — a 2-tuple
`(token_type, weight)` is a terminal rule, a 4-tuple
`(annotations, B, C, weight)` is a binary rule. -/
inductive Rhs where
  | terminal (token_type : TokenType) (weight : Int)
  | binary (annotations : List String) (B : String) (C : String) (weight : Int)
deriving Repr

/-- A production: LHS symbol plus its ordered derivation options. -/
structure Production where
  lhs : String
  rhs : List Rhs
deriving Repr

/-- A grammar: ordered productions and a start symbol. -/
structure BaseGrammar where
  productions : List Production
  start : String
deriving Repr

/-- Modelled from the spec: `BaseGrammar.get_symbol_lookup` lives in
`darglint/parse/grammar.py`, which is not part of the given sources; the
spec requires "a symbol-to-index lookup consistent with production
order".  A symbol maps to the index of its production; a symbol with no
production maps to the (out-of-range) number of productions, standing in
for the `KeyError` a Python dict lookup would raise. -/
def get_symbol_lookup (g : BaseGrammar) (symbol : String) : Nat :=
  g.productions.findIdx (fun p => p.lhs == symbol)

/-- The CYK table: spanLength-index, startPosition-index, productionIndex
to optional node.  In the source this is the nested list `P`, with all
three dimensions preallocated (`n`, `n`, `r`). -/
def Tbl : Type := Nat → Nat → Nat → Option CykNode

/-- Python list indexing on a list of length `len`: plain for
`0 ≤ i < len`, wrapped to the end for `-len ≤ i < 0`, and an
`IndexError` (modelled as `none`) otherwise. -/
def pyIndex (len : Nat) (i : Int) : Option Nat :=
  if 0 ≤ i ∧ i < (len : Int) then some i.toNat
  else if -(len : Int) ≤ i ∧ i < 0 then some (i + len).toNat
  else none

/-- Reading `P[i][j][k]` where `i` and `j` may be negative (and wrap as
in Python) and `k` is a production index bounded by `r`. -/
def tget (n r : Nat) (t : Tbl) (i j : Int) (k : Nat) : Option CykNode :=
  match pyIndex n i, pyIndex n j with
  | some i2, some j2 => if k < r then t i2 j2 k else none
  | _, _ => none

/-- Writing `P[i][j][k] = v` under the same index conventions. -/
def tset (n r : Nat) (t : Tbl) (i j : Int) (k : Nat) (v : CykNode) : Tbl :=
  match pyIndex n i, pyIndex n j with
  | some i2, some j2 =>
    if k < r then
      fun x y z => if x = i2 ∧ y = j2 ∧ z = k then some v else t x y z
    else t
  | _, _ => t

/-- The table with every cell empty (`P` as initialized). -/
def emptyTbl : Tbl := fun _ _ _ => none

/-- The body of the base-case rule loop (`for rhs in production.rhs`):
a binary rule (`len(rhs) > 2`) is skipped; a terminal rule matching the
token's type writes a leaf `CykNode(production.lhs, value=token,
weight=weight)` into `P[0][s][v]`. -/
def termStep (n r : Nat) (tok : Token) (s v : Nat) (lhs : String) (tbl : Tbl)
    (rule : Rhs) : Tbl :=
  match rule with
  | .binary _ _ _ _ => tbl
  | .terminal token_type weight =>
    if tok.token_type == token_type then
      tset n r tbl 0 (s : Int) v (mkCykNode lhs none none (some tok) [] weight)
    else tbl

/-- The base case of `parse`: `for s, token in enumerate(tokens): for v,
production in enumerate(grammar.productions): for rhs in
production.rhs: ...`. -/
def basePass (g : BaseGrammar) (tokens : List Token) (tbl : Tbl) : Tbl :=
  tokens.enum.foldl
    (fun t1 st =>
      g.productions.enum.foldl
        (fun t2 vp => vp.2.rhs.foldl (termStep tokens.length g.productions.length st.2 st.1 vp.1 vp.2.lhs) t2)
        t1)
    tbl

/-- The body of the inductive-case rule loop (`for derivation in
production.rhs`): terminal derivations (`len(derivation) <= 2`) are
skipped; for a binary derivation `(annotations, B, C, weight)` the
children are looked up at `P[p-1][s-1][b]` and `P[l-p-1][s+p-1][c]`;
if both are present and the existing entry `P[l-1][s-1][a]` does not
have strictly greater weight than the rule weight, the cell is
overwritten with the combined node. -/
def derivStep (n r : Nat) (lookup : String → Nat) (l s p a : Nat) (lhs : String)
    (tbl : Tbl) (derivation : Rhs) : Tbl :=
  match derivation with
  | .terminal _ _ => tbl
  | .binary annotations B C weight =>
    let b := lookup B
    let c := lookup C
    match tget n r tbl ((p : Int) - 1) ((s : Int) - 1) b,
          tget n r tbl ((l : Int) - (p : Int) - 1) ((s : Int) + (p : Int) - 1) c with
    | some lc, some rc =>
      match tget n r tbl ((l : Int) - 1) ((s : Int) - 1) a with
      | some old =>
        if old.weight > weight then tbl
        else tset n r tbl ((l : Int) - 1) ((s : Int) - 1) a
          (mkCykNode lhs (some lc) (some rc) none annotations weight)
      | none =>
        tset n r tbl ((l : Int) - 1) ((s : Int) - 1) a
          (mkCykNode lhs (some lc) (some rc) none annotations weight)
    | _, _ => tbl

/-- One pass of `for a, production in enumerate(grammar.productions):
for derivation in production.rhs` at fixed `(l, s, p)`. -/
def prodPass (g : BaseGrammar) (n r : Nat) (lookup : String → Nat) (l s p : Nat)
    (tbl : Tbl) : Tbl :=
  g.productions.enum.foldl
    (fun t ap => ap.2.rhs.foldl (derivStep n r lookup l s p ap.1 ap.2.lhs) t)
    tbl

/-- `for p in range(l)` at fixed `(l, s)`. -/
def splitPass (g : BaseGrammar) (n r : Nat) (lookup : String → Nat) (l s : Nat)
    (tbl : Tbl) : Tbl :=
  (List.range l).foldl (fun t p => prodPass g n r lookup l s p t) tbl

/-- `for s in range(n - l + 2)` at fixed `l`. -/
def startPass (g : BaseGrammar) (n r : Nat) (lookup : String → Nat) (l : Nat)
    (tbl : Tbl) : Tbl :=
  (List.range (n - l + 2)).foldl (fun t s => splitPass g n r lookup l s t) tbl

/-- `for l in range(2, n + 1)`. -/
def lenPass (g : BaseGrammar) (n r : Nat) (lookup : String → Nat) (tbl : Tbl) : Tbl :=
  (List.range' 2 (n - 1)).foldl (fun t l => startPass g n r lookup l t) tbl

/-- The fully filled CYK table for a grammar and token sequence. -/
def cykTable (g : BaseGrammar) (tokens : List Token) : Tbl :=
  lenPass g tokens.length g.productions.length (get_symbol_lookup g)
    (basePass g tokens emptyTbl)

/-- `parse(grammar, tokens)`: `None` on empty input, otherwise the table
entry `P[n-1][0][lookup[grammar.start]]`. -/
def parse (g : BaseGrammar) (tokens : List Token) : Option CykNode :=
  match tokens with
  | [] => none
  | _ =>
    tget tokens.length g.productions.length (cykTable g tokens)
      ((tokens.length : Int) - 1) 0 (get_symbol_lookup g g.start)

/-- Derivability in a grammar: `Derives g A ts` means the symbol `A`
(the LHS of one of `g`'s productions) derives the token sequence `ts`,
either by a terminal rule matching a single token's category or by a
binary rule splitting `ts` into two derivable parts. -/
inductive Derives (g : BaseGrammar) : String → List Token → Prop where
  | terminal (production : Production) (token_type : TokenType) (weight : Int)
      (tok : Token) :
      production ∈ g.productions →
      Rhs.terminal token_type weight ∈ production.rhs →
      tok.token_type = token_type →
      Derives g production.lhs [tok]
  | binary (production : Production) (annotations : List String) (B C : String)
      (weight : Int) (ts1 ts2 : List Token) :
      production ∈ g.productions →
      Rhs.binary annotations B C weight ∈ production.rhs →
      Derives g B ts1 →
      Derives g C ts2 →
      Derives g production.lhs (ts1 ++ ts2)

/-- Correctness of every in-range table cell: a node stored at
spanLength-index `i`, start `j`, production index `k` (with the span
`[j, j+i+1)` inside the input) carries exactly the tokens of that span
in order, is labelled with production `k`'s LHS, and that LHS derives
the span. -/
def CellOK (g : BaseGrammar) (tokens : List Token) (tbl : Tbl) : Prop :=
  ∀ i j k node, tbl i j k = some node → j + i + 1 ≤ tokens.length →
    inOrderTokens node = (tokens.drop j).take (i + 1) ∧
    ∃ production, g.productions[k]? = some production ∧
      node.symbol = production.lhs ∧
      Derives g production.lhs ((tokens.drop j).take (i + 1))

/-- All cells for span lengths `≥ m` are still empty. -/
def RowsNone (tbl : Tbl) (m : Nat) : Prop :=
  ∀ i j k, m ≤ i + 1 → tbl i j k = none

/-- Which cells of the row for span length `l` may be filled: only start
columns below `bound` (the starts already processed in the current
start-loop) and the wrapped column `n - 1` (the junk column written by
the `s = 0` iteration). -/
def RowP (n : Nat) (tbl : Tbl) (l bound : Nat) : Prop :=
  ∀ j k node, tbl (l - 1) j k = some node → j + 1 ≤ bound ∨ j = n - 1

/-- Spec-side: structural whitespace categories named by the claim
(INDENT and NEWLINE). -/
def specIsWhitespace (t : TokenType) : Bool :=
  t == TokenType.INDENT || t == TokenType.NEWLINE

/-- Spec-side: the separator between two consecutive terminals — empty
when either is structural whitespace or the right-hand one is a colon,
a single space otherwise. -/
def specSep (a b : Token) : String :=
  if specIsWhitespace a.token_type || specIsWhitespace b.token_type
      || b.token_type == TokenType.COLON then ""
  else " "

/-- Spec-side: the text contributed by every terminal after the first,
each preceded by its separator. -/
def joinRest (prev : Token) : List Token → String
  | [] => ""
  | t :: rest => specSep prev t ++ t.value ++ joinRest t rest

/-- Spec-side: concatenation of a terminal sequence with the pairwise
separator rule; the empty sequence gives the empty string. -/
def specJoin : List Token → String
  | [] => ""
  | t :: rest => t.value ++ joinRest t rest

/-- Spec-side: the line number of the first in-order terminal
(`-1` when there is none). -/
def firstTerminalLine (t : CykNode) : Int :=
  match inOrderTokens t with
  | [] => -1
  | tok :: _ => tok.line_number

/-- Spec-side: the line number of the last in-order terminal
(`-1` when there is none). -/
def lastTerminalLine (t : CykNode) : Int :=
  match (inOrderTokens t).getLast? with
  | none => -1
  | some tok => tok.line_number

/-- A tree in which every node is either a leaf carrying a token value
or an internal node with both children and no value (the shape the
grammar produces in practice, per the spec's data-model invariant). -/
def wfFull : CykNode → Bool
  | .node _ none none (some _) _ _ => true
  | .node _ (some l) (some r) none _ _ => wfFull l && wfFull r
  | _ => false

/-- The height of a tree (edges on a longest root-to-leaf path). -/
def CykNode.height : CykNode → Nat
  | .node _ lc rc _ _ _ =>
    match lc, rc with
    | none, none => 0
    | some l, none => 1 + l.height
    | none, some r => 1 + r.height
    | some l, some r => 1 + max l.height r.height

/-- The raw (pre-wrap) row/column index pairs of the two child lookups
`P[p-1][s-1][b]` and `P[l-p-1][s+p-1][c]` performed for one derivation;
these reads happen unconditionally for every binary derivation. -/
def derivReadIndices (l s p : Nat) (derivation : Rhs) : List (Int × Int) :=
  match derivation with
  | .terminal _ _ => []
  | .binary _ _ _ _ =>
    [((p : Int) - 1, (s : Int) - 1),
     ((l : Int) - (p : Int) - 1, (s : Int) + (p : Int) - 1)]

/-- All raw row/column index pairs read from the table by the inductive
case of `parse`, in loop order: `l` over `range(2, n+1)`, `s` over
`range(n-l+2)`, `p` over `range(l)`, productions, derivations. -/
def inductiveReadIndices (g : BaseGrammar) (tokens : List Token) : List (Int × Int) :=
  (List.range' 2 (tokens.length - 1)).flatMap (fun l =>
    (List.range (tokens.length - l + 2)).flatMap (fun s =>
      (List.range l).flatMap (fun p =>
        g.productions.flatMap (fun production =>
          production.rhs.flatMap (derivReadIndices l s p)))))

/-- The weight of the last terminal rule in `rules` whose category
matches `tt`, if any (evaluation order of the base-case rule loop). -/
def lastTerminalMatch (rules : List Rhs) (tt : TokenType) : Option Int :=
  rules.foldr
    (fun rule acc =>
      match acc with
      | some w => some w
      | none =>
        match rule with
        | .terminal t w => if tt == t then some w else none
        | .binary _ _ _ _ => none)
    none

/-! Concrete inputs used by witnesses and counterexamples. -/

def tokAlpha : Token := ⟨.WORD, "alpha", 1⟩

def tokBeta : Token := ⟨.WORD, "beta", 1⟩

/-- The spec's end-to-end example grammar: `S → A B` (weight 5), `A` and
`B` each matching a WORD token with weight 1. -/
def specG : BaseGrammar :=
  ⟨[⟨"S", [.binary [] "A" "B" 5]⟩,
    ⟨"A", [.terminal .WORD 1]⟩,
    ⟨"B", [.terminal .WORD 1]⟩], "S"⟩

def specLeafA : CykNode := CykNode.node "A" none none (some tokAlpha) [] 1

def specLeafB : CykNode := CykNode.node "B" none none (some tokBeta) [] 1

/-- The tree `parse specG [tokAlpha, tokBeta]` produces. -/
def specTree : CykNode := CykNode.node "S" (some specLeafA) (some specLeafB) none [] 5

/-- A production with two terminal rules for the same category, the
higher weight evaluated first. -/
def cexG2 : BaseGrammar := ⟨[⟨"S", [.terminal .WORD 5, .terminal .WORD 1]⟩], "S"⟩

/-- A symbol-and-no-value node with no children. -/
def eqNodeA : CykNode := CykNode.node "S" none none none [] 0

/-- The same symbol with a left child present. -/
def eqNodeB : CykNode := CykNode.node "S" (some eqNodeA) none none [] 0

def wordLeaf (s : String) : CykNode :=
  CykNode.node "W" none none (some ⟨.WORD, s, 1⟩) [] 1

/-- A tree whose in-order terminals are `foo`, `bar`, `baz`. -/
def treeFooBarBaz : CykNode :=
  CykNode.node "S" (some (wordLeaf "foo"))
    (some (CykNode.node "X" (some (wordLeaf "bar")) (some (wordLeaf "baz")) none [] 0))
    none [] 0

/-- A tree whose in-order terminals are `foo`, a colon token, `bar`. -/
def treeFooColonBar : CykNode :=
  CykNode.node "S" (some (wordLeaf "foo"))
    (some (CykNode.node "X"
      (some (CykNode.node "C" none none (some ⟨.COLON, ":", 1⟩) [] 1))
      (some (wordLeaf "bar")) none [] 0))
    none [] 0

/-- A node with only a right child, whose single terminal is on line 5. -/
def rightOnlyTree : CykNode :=
  CykNode.node "S" none
    (some (CykNode.node "W" none none (some ⟨.WORD, "x", 5⟩) [] 1)) none [] 0

/-- A hand-filled table holding the two leaves of `specG`'s end-to-end
example at their length-1 spans (production indices 1 and 2). -/
def pairTbl : Tbl := fun i j k =>
  if i = 0 ∧ j = 0 ∧ k = 1 then some specLeafA
  else if i = 0 ∧ j = 1 ∧ k = 2 then some specLeafB
  else none

/-! Basic facts about `CykNode`. -/

theorem CykNode.my_ind (motive : CykNode → Prop)
    (h : ∀ sym lc rc v a w,
      (∀ l, lc = some l → motive l) → (∀ r, rc = some r → motive r) →
      motive (.node sym lc rc v a w)) :
    ∀ t, motive t := by
  have key : ∀ m t, sizeOf t ≤ m → motive t := by
    intro m
    induction m with
    | zero =>
      intro t ht
      cases t with
      | node s lc rc v a w =>
        exfalso
        simp only [CykNode.node.sizeOf_spec] at ht
        omega
    | succ m ih =>
      intro t ht
      cases t with
      | node s lc rc v a w =>
        apply h
        · intro l hl
          apply ih
          subst hl
          simp only [CykNode.node.sizeOf_spec, Option.some.sizeOf_spec] at ht
          omega
        · intro r hr
          apply ih
          subst hr
          cases lc with
          | none =>
            simp only [CykNode.node.sizeOf_spec, Option.some.sizeOf_spec] at ht
            omega
          | some l =>
            simp only [CykNode.node.sizeOf_spec, Option.some.sizeOf_spec] at ht
            omega
  exact fun t => key (sizeOf t) t le_rfl

theorem mkCykNode_symbol (s : String) (lc rc : Option CykNode) (v : Option Token)
    (a : List String) (w : Int) : (mkCykNode s lc rc v a w).symbol = s := by
  unfold mkCykNode
  split <;> rfl

theorem mkCykNode_value (s : String) (lc rc : Option CykNode) (v : Option Token)
    (a : List String) (w : Int) : (mkCykNode s lc rc v a w).value = v := by
  unfold mkCykNode
  split <;> rfl

theorem mkCykNode_lchild (s : String) (lc rc : Option CykNode) (v : Option Token)
    (a : List String) (w : Int) : (mkCykNode s lc rc v a w).lchild = lc := by
  unfold mkCykNode
  split <;> rfl

theorem mkCykNode_rchild (s : String) (lc rc : Option CykNode) (v : Option Token)
    (a : List String) (w : Int) : (mkCykNode s lc rc v a w).rchild = rc := by
  unfold mkCykNode
  split <;> rfl

theorem mkCykNode_weight (s : String) (lc rc : Option CykNode) (v : Option Token)
    (a : List String) (w : Int) :
    (mkCykNode s lc rc v a w).weight =
      if w ≠ 0 then w
      else max 0 (max (match lc with | some l => l.weight | none => 0)
                      (match rc with | some r => r.weight | none => 0)) := by
  unfold mkCykNode
  split <;> simp_all [CykNode.weight]

theorem in_order_traverse_node (s : String) (lc rc : Option CykNode) (v : Option Token)
    (a : List String) (w : Int) :
    (CykNode.node s lc rc v a w).in_order_traverse =
      (match lc with | some l => l.in_order_traverse | none => []) ++
      [CykNode.node s lc rc v a w] ++
      (match rc with | some r => r.in_order_traverse | none => []) := by
  rw [CykNode.in_order_traverse.eq_def]

theorem inOrderTokens_node (s : String) (lc rc : Option CykNode) (v : Option Token)
    (a : List String) (w : Int) :
    inOrderTokens (CykNode.node s lc rc v a w) =
      (match lc with | some l => inOrderTokens l | none => []) ++
      (match v with | some tok => [tok] | none => []) ++
      (match rc with | some r => inOrderTokens r | none => []) := by
  unfold inOrderTokens
  rw [in_order_traverse_node]
  cases lc <;> cases rc <;> cases v <;>
    simp [List.filterMap_append, CykNode.value]

theorem inOrderTokens_mk_internal (s : String) (l r : CykNode) (a : List String) (w : Int) :
    inOrderTokens (mkCykNode s (some l) (some r) none a w) =
      inOrderTokens l ++ inOrderTokens r := by
  unfold mkCykNode
  split <;> rw [inOrderTokens_node] <;> simp

theorem inOrderTokens_mk_leaf (s : String) (tok : Token) (a : List String) (w : Int) :
    inOrderTokens (mkCykNode s none none (some tok) a w) = [tok] := by
  unfold mkCykNode
  split <;> rw [inOrderTokens_node] <;> simp

theorem foldl_id {α β : Type} (f : β → α → β) (b : β) (l : List α)
    (h : ∀ a ∈ l, f b a = b) : List.foldl f b l = b := by
  induction l with
  | nil => rfl
  | cons x xs ih =>
    simp only [List.foldl_cons]
    rw [h x (by simp)]
    exact ih (fun a ha => h a (by simp [ha]))

/-! Facts about table indexing. -/

theorem pyIndex_ofNat (len m : Nat) (h : m < len) : pyIndex len (m : Nat) = some m := by
  unfold pyIndex
  have h0 : (0 : Int) ≤ (m : Int) := Int.ofNat_nonneg m
  have h1 : (m : Int) < (len : Int) := by exact_mod_cast h
  simp [h0, h1]

theorem pyIndex_neg_one (len : Nat) (h : 1 ≤ len) : pyIndex len (-1) = some (len - 1) := by
  unfold pyIndex
  have h1 : ¬((0 : Int) ≤ -1 ∧ (-1 : Int) < (len : Int)) := by omega
  have h2 : -(len : Int) ≤ -1 ∧ (-1 : Int) < 0 := by omega
  rw [if_neg h1, if_pos h2]
  congr 1
  omega

theorem pyIndex_sub_one (len s : Nat) (h1 : 1 ≤ s) (h2 : s ≤ len) :
    pyIndex len ((s : Int) - 1) = some (s - 1) := by
  have : ((s : Int) - 1) = ((s - 1 : Nat) : Int) := by omega
  rw [this]
  exact pyIndex_ofNat len (s - 1) (by omega)

theorem tget_idx (n r : Nat) (t : Tbl) (i j : Int) (k : Nat) (i2 j2 : Nat)
    (hi : pyIndex n i = some i2) (hj : pyIndex n j = some j2) :
    tget n r t i j k = if k < r then t i2 j2 k else none := by
  simp [tget, hi, hj]

theorem tget_eq_some (n r : Nat) (t : Tbl) (i j : Int) (k : Nat) (nd : CykNode) :
    tget n r t i j k = some nd ↔
      ∃ i2 j2, pyIndex n i = some i2 ∧ pyIndex n j = some j2 ∧ k < r ∧
        t i2 j2 k = some nd := by
  constructor
  · intro h
    cases hi : pyIndex n i with
    | none => simp [tget, hi] at h
    | some i2 =>
      cases hj : pyIndex n j with
      | none => simp [tget, hi, hj] at h
      | some j2 =>
        rw [tget_idx n r t i j k i2 j2 hi hj] at h
        by_cases hk : k < r
        · rw [if_pos hk] at h
          exact ⟨i2, j2, rfl, rfl, hk, h⟩
        · rw [if_neg hk] at h
          cases h
  · rintro ⟨i2, j2, hi, hj, hk, h⟩
    rw [tget_idx n r t i j k i2 j2 hi hj, if_pos hk]
    exact h

theorem tset_apply (n r : Nat) (t : Tbl) (i j : Int) (k : Nat) (v : CykNode)
    (i2 j2 : Nat) (hi : pyIndex n i = some i2) (hj : pyIndex n j = some j2)
    (hk : k < r) (x y z : Nat) :
    tset n r t i j k v x y z =
      if x = i2 ∧ y = j2 ∧ z = k then some v else t x y z := by
  simp [tset, hi, hj, hk]

/-! The table invariant and its preservation through the parse loops. -/

theorem lookup_lhs (g : BaseGrammar) (B : String)
    (production : Production)
    (h : g.productions[get_symbol_lookup g B]? = some production) :
    production.lhs = B := by
  have hlt : get_symbol_lookup g B < g.productions.length :=
    (List.getElem?_eq_some.mp h).1
  have hget : g.productions[get_symbol_lookup g B] = production := by
    have := List.getElem?_eq_getElem hlt
    rw [this] at h
    exact Option.some.inj h
  have hlt2 : g.productions.findIdx (fun pr => pr.lhs == B) < g.productions.length := hlt
  have hbeq := @List.findIdx_getElem _ (fun pr => pr.lhs == B) g.productions hlt2
  simp only [show g.productions.findIdx (fun pr => pr.lhs == B) = get_symbol_lookup g B from rfl,
    hget] at hbeq
  exact beq_iff_eq.mp hbeq

theorem slice_glue (ts : List Token) (a b c : Nat) :
    (ts.drop a).take b ++ (ts.drop (a + b)).take c = (ts.drop a).take (b + c) := by
  rw [List.take_add, ← List.drop_drop]

/-- Writing the combined node for a binary derivation preserves the
three table invariants. -/
theorem tset_write_inv (g : BaseGrammar) (tokens : List Token)
    (l s p a : Nat) (production : Production)
    (ann : List String) (B C : String) (w : Int) (tbl : Tbl)
    (hl2 : 2 ≤ l) (hln : l ≤ tokens.length)
    (hs : s ≤ tokens.length - l + 1) (hp : p < l) (hsp : s = 0 ∨ 1 ≤ p)
    (ha : g.productions[a]? = some production)
    (hd : Rhs.binary ann B C w ∈ production.rhs)
    (hOK : CellOK g tokens tbl)
    (hRN : RowsNone tbl (l + 1))
    (hRP : RowP tokens.length tbl l s)
    (lc rc : CykNode)
    (hlc : tget tokens.length g.productions.length tbl ((p : Int) - 1) ((s : Int) - 1)
      (get_symbol_lookup g B) = some lc)
    (hrc : tget tokens.length g.productions.length tbl
      ((l : Int) - (p : Int) - 1) ((s : Int) + (p : Int) - 1)
      (get_symbol_lookup g C) = some rc) :
    CellOK g tokens (tset tokens.length g.productions.length tbl
      ((l : Int) - 1) ((s : Int) - 1) a
      (mkCykNode production.lhs (some lc) (some rc) none ann w)) ∧
    RowsNone (tset tokens.length g.productions.length tbl
      ((l : Int) - 1) ((s : Int) - 1) a
      (mkCykNode production.lhs (some lc) (some rc) none ann w)) (l + 1) ∧
    RowP tokens.length (tset tokens.length g.productions.length tbl
      ((l : Int) - 1) ((s : Int) - 1) a
      (mkCykNode production.lhs (some lc) (some rc) none ann w)) l s := by
  have hn2 : 2 ≤ tokens.length := le_trans hl2 hln
  have ha_lt : a < g.productions.length := (List.getElem?_eq_some.mp ha).1
  have hpy_row : pyIndex tokens.length ((l : Int) - 1) = some (l - 1) :=
    pyIndex_sub_one tokens.length l (by omega) hln
  rcases Nat.eq_zero_or_pos s with hs0 | hs1
  · -- s = 0: the write lands in the wrapped column n-1, outside every
    -- in-range span, so all three invariants are untouched.
    subst hs0
    have hcol : ((0 : Nat) : Int) - 1 = -1 := by norm_num
    have hpy_col : pyIndex tokens.length (((0 : Nat) : Int) - 1) =
        some (tokens.length - 1) := by
      rw [hcol]
      exact pyIndex_neg_one tokens.length (by omega)
    refine ⟨?_, ?_, ?_⟩
    · intro i j k node hcell hin
      rw [tset_apply _ _ tbl _ _ a _ (l - 1) (tokens.length - 1) hpy_row hpy_col ha_lt] at hcell
      by_cases hsame : i = l - 1 ∧ j = tokens.length - 1 ∧ k = a
      · exfalso
        obtain ⟨hi, hj, _⟩ := hsame
        subst hi; subst hj
        omega
      · rw [if_neg hsame] at hcell
        exact hOK i j k node hcell hin
    · intro i j k hi
      rw [tset_apply _ _ tbl _ _ a _ (l - 1) (tokens.length - 1) hpy_row hpy_col ha_lt]
      by_cases hsame : i = l - 1 ∧ j = tokens.length - 1 ∧ k = a
      · exfalso; obtain ⟨hieq, _, _⟩ := hsame; omega
      · rw [if_neg hsame]
        exact hRN i j k hi
    · intro j k node hcell
      rw [tset_apply _ _ tbl _ _ a _ (l - 1) (tokens.length - 1) hpy_row hpy_col ha_lt] at hcell
      by_cases hsame : l - 1 = l - 1 ∧ j = tokens.length - 1 ∧ k = a
      · right; exact hsame.2.1
      · rw [if_neg hsame] at hcell
        exact hRP j k node hcell
  · -- s ≥ 1: an in-range write of a span-correct node.
    have hp1 : 1 ≤ p := by rcases hsp with h0 | h1 <;> omega
    have hpy_col : pyIndex tokens.length ((s : Int) - 1) = some (s - 1) :=
      pyIndex_sub_one tokens.length s hs1 (by omega)
    -- unpack the left-child read
    rw [tget_eq_some] at hlc
    obtain ⟨i2, j2, hi2, hj2, hb_lt, hcell_lc⟩ := hlc
    have hi2e : i2 = p - 1 := by
      have := pyIndex_sub_one tokens.length p hp1 (by omega)
      rw [this] at hi2
      exact (Option.some.inj hi2).symm
    have hj2e : j2 = s - 1 := by
      rw [hpy_col] at hj2
      exact (Option.some.inj hj2).symm
    subst hi2e; subst hj2e
    obtain ⟨hlcTok, prodB, hprodB, hsymB, hderB⟩ :=
      hOK (p - 1) (s - 1) (get_symbol_lookup g B) lc hcell_lc (by omega)
    have hBlhs : prodB.lhs = B := lookup_lhs g B prodB hprodB
    -- unpack the right-child read
    rw [tget_eq_some] at hrc
    obtain ⟨i3, j3, hi3, hj3, hc_lt, hcell_rc⟩ := hrc
    have hi3e : i3 = l - p - 1 := by
      have hcast : (l : Int) - (p : Int) - 1 = ((l - p - 1 : Nat) : Int) := by omega
      rw [hcast, pyIndex_ofNat tokens.length (l - p - 1) (by omega)] at hi3
      exact (Option.some.inj hi3).symm
    have hj3e : j3 = s + p - 1 := by
      have hcast : (s : Int) + (p : Int) - 1 = ((s + p - 1 : Nat) : Int) := by omega
      rw [hcast, pyIndex_ofNat tokens.length (s + p - 1) (by omega)] at hj3
      exact (Option.some.inj hj3).symm
    subst hi3e; subst hj3e
    obtain ⟨hrcTok, prodC, hprodC, hsymC, hderC⟩ :=
      hOK (l - p - 1) (s + p - 1) (get_symbol_lookup g C) rc hcell_rc (by omega)
    have hClhs : prodC.lhs = C := lookup_lhs g C prodC hprodC
    -- the combined node covers the span of length l at s-1
    have hnewTok : inOrderTokens (mkCykNode production.lhs (some lc) (some rc) none ann w) =
        (tokens.drop (s - 1)).take l := by
      rw [inOrderTokens_mk_internal, hlcTok, hrcTok]
      have e1 : p - 1 + 1 = p := by omega
      have e2 : l - p - 1 + 1 = l - p := by omega
      have e3 : s + p - 1 = (s - 1) + p := by omega
      rw [e1, e2, e3, slice_glue]
      congr 1
      omega
    have hder : Derives g production.lhs ((tokens.drop (s - 1)).take l) := by
      have hmem : production ∈ g.productions := List.getElem?_mem ha
      have hb := hderB
      rw [hBlhs] at hb
      have hc := hderC
      rw [hClhs] at hc
      have e1 : p - 1 + 1 = p := by omega
      have e2 : l - p - 1 + 1 = l - p := by omega
      have e3 : s + p - 1 = (s - 1) + p := by omega
      rw [e1] at hb
      rw [e2, e3] at hc
      have := Derives.binary production ann B C w _ _ hmem hd hb hc
      rwa [slice_glue, show p + (l - p) = l by omega] at this
    refine ⟨?_, ?_, ?_⟩
    · intro i j k node hcell hin
      rw [tset_apply _ _ tbl _ _ a _ (l - 1) (s - 1) hpy_row hpy_col ha_lt] at hcell
      by_cases hsame : i = l - 1 ∧ j = s - 1 ∧ k = a
      · obtain ⟨hi, hj, hk⟩ := hsame
        subst hi; subst hj; subst hk
        rw [if_pos ⟨rfl, rfl, rfl⟩] at hcell
        have hnode := (Option.some.inj hcell).symm
        subst hnode
        have hl1 : l - 1 + 1 = l := by omega
        refine ⟨by rw [hnewTok, hl1], production, ha, mkCykNode_symbol _ _ _ _ _ _, ?_⟩
        rw [hl1]
        exact hder
      · rw [if_neg hsame] at hcell
        exact hOK i j k node hcell hin
    · intro i j k hi
      rw [tset_apply _ _ tbl _ _ a _ (l - 1) (s - 1) hpy_row hpy_col ha_lt]
      by_cases hsame : i = l - 1 ∧ j = s - 1 ∧ k = a
      · exfalso; obtain ⟨hieq, _, _⟩ := hsame; omega
      · rw [if_neg hsame]
        exact hRN i j k hi
    · intro j k node hcell
      rw [tset_apply _ _ tbl _ _ a _ (l - 1) (s - 1) hpy_row hpy_col ha_lt] at hcell
      by_cases hsame : l - 1 = l - 1 ∧ j = s - 1 ∧ k = a
      · left
        rw [hsame.2.1]
        omega
      · rw [if_neg hsame] at hcell
        exact hRP j k node hcell

/-- One derivation step of the inductive case preserves the invariants. -/
theorem derivStep_inv (g : BaseGrammar) (tokens : List Token)
    (l s p a : Nat) (production : Production) (d : Rhs) (tbl : Tbl)
    (hl2 : 2 ≤ l) (hln : l ≤ tokens.length)
    (hs : s ≤ tokens.length - l + 1) (hp : p < l) (hsp : s = 0 ∨ 1 ≤ p)
    (ha : g.productions[a]? = some production)
    (hd : d ∈ production.rhs)
    (hOK : CellOK g tokens tbl)
    (hRN : RowsNone tbl (l + 1))
    (hRP : RowP tokens.length tbl l s) :
    CellOK g tokens (derivStep tokens.length g.productions.length (get_symbol_lookup g)
      l s p a production.lhs tbl d) ∧
    RowsNone (derivStep tokens.length g.productions.length (get_symbol_lookup g)
      l s p a production.lhs tbl d) (l + 1) ∧
    RowP tokens.length (derivStep tokens.length g.productions.length (get_symbol_lookup g)
      l s p a production.lhs tbl d) l s := by
  cases d with
  | terminal tt w => exact ⟨hOK, hRN, hRP⟩
  | binary ann B C w =>
    simp only [derivStep]
    cases hlc : tget tokens.length g.productions.length tbl ((p : Int) - 1) ((s : Int) - 1)
        (get_symbol_lookup g B) with
    | none => exact ⟨hOK, hRN, hRP⟩
    | some lc =>
      cases hrc : tget tokens.length g.productions.length tbl
          ((l : Int) - (p : Int) - 1) ((s : Int) + (p : Int) - 1)
          (get_symbol_lookup g C) with
      | none => exact ⟨hOK, hRN, hRP⟩
      | some rc =>
        cases hold : tget tokens.length g.productions.length tbl
            ((l : Int) - 1) ((s : Int) - 1) a with
        | some old =>
          dsimp only
          by_cases hw : old.weight > w
          · rw [if_pos hw]
            exact ⟨hOK, hRN, hRP⟩
          · rw [if_neg hw]
            exact tset_write_inv g tokens l s p a production ann B C w tbl
              hl2 hln hs hp hsp ha hd hOK hRN hRP lc rc hlc hrc
        | none =>
          exact tset_write_inv g tokens l s p a production ann B C w tbl
            hl2 hln hs hp hsp ha hd hOK hRN hRP lc rc hlc hrc

/-- A full pass over all productions and their derivations at one
`(l, s, p)` preserves the invariants. -/
theorem prodPass_inv (g : BaseGrammar) (tokens : List Token)
    (l s p : Nat) (tbl : Tbl)
    (hl2 : 2 ≤ l) (hln : l ≤ tokens.length)
    (hs : s ≤ tokens.length - l + 1) (hp : p < l) (hsp : s = 0 ∨ 1 ≤ p)
    (hOK : CellOK g tokens tbl)
    (hRN : RowsNone tbl (l + 1))
    (hRP : RowP tokens.length tbl l s) :
    CellOK g tokens (prodPass g tokens.length g.productions.length
      (get_symbol_lookup g) l s p tbl) ∧
    RowsNone (prodPass g tokens.length g.productions.length
      (get_symbol_lookup g) l s p tbl) (l + 1) ∧
    RowP tokens.length (prodPass g tokens.length g.productions.length
      (get_symbol_lookup g) l s p tbl) l s := by
  unfold prodPass
  refine @List.foldlRecOn _ _
    (fun t => CellOK g tokens t ∧ RowsNone t (l + 1) ∧ RowP tokens.length t l s)
    g.productions.enum _ tbl ⟨hOK, hRN, hRP⟩ ?_
  intro t ht ap hap
  obtain ⟨av, production⟩ := ap
  have hav : g.productions[av]? = some production :=
    List.mk_mem_enum_iff_getElem?.mp hap
  refine @List.foldlRecOn _ _
    (fun t => CellOK g tokens t ∧ RowsNone t (l + 1) ∧ RowP tokens.length t l s)
    production.rhs _ t ht ?_
  intro t2 ht2 d hd
  exact derivStep_inv g tokens l s p av production d t2
    hl2 hln hs hp hsp hav hd ht2.1 ht2.2.1 ht2.2.2

/-- At a start position `s ≥ 1`, the split-point-zero pass reads the
(empty) cell for the full-input span at column `s - 1` as the left
child, so it writes nothing. -/
theorem prodPass_p0_id (g : BaseGrammar) (tokens : List Token)
    (l s : Nat) (tbl : Tbl)
    (hl2 : 2 ≤ l) (hln : l ≤ tokens.length) (hs1 : 1 ≤ s)
    (hs : s ≤ tokens.length - l + 1)
    (hnone : ∀ k, tbl (tokens.length - 1) (s - 1) k = none) :
    prodPass g tokens.length g.productions.length (get_symbol_lookup g) l s 0 tbl = tbl := by
  unfold prodPass
  apply foldl_id
  intro ap hap
  apply foldl_id
  intro d hd
  cases d with
  | terminal tt w => rfl
  | binary ann B C w =>
    simp only [derivStep]
    have hrow : ((0 : Nat) : Int) - 1 = -1 := by norm_num
    have hpy_row : pyIndex tokens.length (((0 : Nat) : Int) - 1) =
        some (tokens.length - 1) := by
      rw [hrow]
      exact pyIndex_neg_one tokens.length (by omega)
    have hpy_col : pyIndex tokens.length ((s : Int) - 1) = some (s - 1) :=
      pyIndex_sub_one tokens.length s hs1 (by omega)
    rw [tget_idx tokens.length g.productions.length tbl _ _ (get_symbol_lookup g B)
      (tokens.length - 1) (s - 1) hpy_row hpy_col]
    by_cases hk : get_symbol_lookup g B < g.productions.length
    · rw [if_pos hk, hnone]
    · rw [if_neg hk]

/-- One iteration of the start loop: entering with the row for length
`l` filled only at columns below `s - 1` (or the wrapped column), the
whole split loop preserves the invariants and extends the row bound to
`s`. -/
theorem splitPass_inv (g : BaseGrammar) (tokens : List Token)
    (l s : Nat) (tbl : Tbl)
    (hl2 : 2 ≤ l) (hln : l ≤ tokens.length) (hs : s ≤ tokens.length - l + 1)
    (hOK : CellOK g tokens tbl)
    (hRN : RowsNone tbl (l + 1))
    (hRP : RowP tokens.length tbl l (s - 1)) :
    CellOK g tokens (splitPass g tokens.length g.productions.length
      (get_symbol_lookup g) l s tbl) ∧
    RowsNone (splitPass g tokens.length g.productions.length
      (get_symbol_lookup g) l s tbl) (l + 1) ∧
    RowP tokens.length (splitPass g tokens.length g.productions.length
      (get_symbol_lookup g) l s tbl) l s := by
  have hRPw : RowP tokens.length tbl l s := by
    intro j k nd h
    rcases hRP j k nd h with h1 | h2
    · left; omega
    · right; exact h2
  rcases Nat.eq_zero_or_pos s with hs0 | hs1
  · subst hs0
    unfold splitPass
    refine @List.foldlRecOn _ _
      (fun t => CellOK g tokens t ∧ RowsNone t (l + 1) ∧ RowP tokens.length t l 0)
      (List.range l) _ tbl ⟨hOK, hRN, hRPw⟩ ?_
    intro t ht p hp
    exact prodPass_inv g tokens l 0 p t hl2 hln hs (List.mem_range.mp hp)
      (Or.inl rfl) ht.1 ht.2.1 ht.2.2
  · have hnone : ∀ k, tbl (tokens.length - 1) (s - 1) k = none := by
      intro k
      by_cases hleq : l = tokens.length
      · cases hcell : tbl (tokens.length - 1) (s - 1) k with
        | none => rfl
        | some nd =>
          exfalso
          have hrow : tokens.length - 1 = l - 1 := by omega
          rw [hrow] at hcell
          rcases hRP (s - 1) k nd hcell with h1 | h2 <;> omega
      · have hlt : l < tokens.length := lt_of_le_of_ne hln hleq
        exact hRN (tokens.length - 1) (s - 1) k (by omega)
    unfold splitPass
    have hrange : List.range l = 0 :: List.range' 1 (l - 1) := by
      rw [List.range_eq_range']
      rw [show l = (l - 1) + 1 by omega]
      exact List.range'_succ 0 (l - 1) 1
    rw [hrange]
    simp only [List.foldl_cons]
    rw [prodPass_p0_id g tokens l s tbl hl2 hln hs1 hs hnone]
    refine @List.foldlRecOn _ _
      (fun t => CellOK g tokens t ∧ RowsNone t (l + 1) ∧ RowP tokens.length t l s)
      (List.range' 1 (l - 1)) _ tbl ⟨hOK, hRN, hRPw⟩ ?_
    intro t ht p hp
    have hmem := List.mem_range'_1.mp hp
    exact prodPass_inv g tokens l s p t hl2 hln hs (by omega)
      (Or.inr hmem.1) ht.1 ht.2.1 ht.2.2

/-- The tail of the start loop, from `s0` to the end, keeps the table
correct. -/
theorem startPass_aux (g : BaseGrammar) (tokens : List Token) (l : Nat)
    (hl2 : 2 ≤ l) (hln : l ≤ tokens.length) :
    ∀ cnt s0 tbl, s0 + cnt = tokens.length - l + 2 →
      CellOK g tokens tbl → RowsNone tbl (l + 1) →
      RowP tokens.length tbl l (s0 - 1) →
      CellOK g tokens ((List.range' s0 cnt).foldl
        (fun t s => splitPass g tokens.length g.productions.length
          (get_symbol_lookup g) l s t) tbl) ∧
      RowsNone ((List.range' s0 cnt).foldl
        (fun t s => splitPass g tokens.length g.productions.length
          (get_symbol_lookup g) l s t) tbl) (l + 1) := by
  intro cnt
  induction cnt with
  | zero =>
    intro s0 tbl hsum hOK hRN hRP
    simpa [List.range'] using ⟨hOK, hRN⟩
  | succ cnt ih =>
    intro s0 tbl hsum hOK hRN hRP
    rw [List.range'_succ]
    simp only [List.foldl_cons]
    have hstep := splitPass_inv g tokens l s0 tbl hl2 hln (by omega) hOK hRN hRP
    refine ih (s0 + 1) _ (by omega) hstep.1 hstep.2.1 ?_
    simpa using hstep.2.2

/-- A full start pass takes a table in which all lengths `≥ l` are
empty to one that is still correct with all lengths `≥ l + 1` empty. -/
theorem startPass_inv (g : BaseGrammar) (tokens : List Token) (l : Nat)
    (hl2 : 2 ≤ l) (hln : l ≤ tokens.length) (tbl : Tbl)
    (hOK : CellOK g tokens tbl) (hRN : RowsNone tbl l) :
    CellOK g tokens (startPass g tokens.length g.productions.length
      (get_symbol_lookup g) l tbl) ∧
    RowsNone (startPass g tokens.length g.productions.length
      (get_symbol_lookup g) l tbl) (l + 1) := by
  unfold startPass
  rw [List.range_eq_range']
  have hRP0 : RowP tokens.length tbl l (0 - 1) := by
    intro j k nd h
    rw [hRN (l - 1) j k (by omega)] at h
    cases h
  exact startPass_aux g tokens l hl2 hln (tokens.length - l + 2) 0 tbl
    (by omega) hOK (fun i j k h => hRN i j k (by omega)) hRP0

/-- The tail of the length loop keeps the table correct. -/
theorem lenPass_aux (g : BaseGrammar) (tokens : List Token) :
    ∀ cnt l0 tbl, 2 ≤ l0 → l0 + cnt = tokens.length + 1 →
      CellOK g tokens tbl → RowsNone tbl l0 →
      CellOK g tokens ((List.range' l0 cnt).foldl
        (fun t l => startPass g tokens.length g.productions.length
          (get_symbol_lookup g) l t) tbl) := by
  intro cnt
  induction cnt with
  | zero =>
    intro l0 tbl hl0 hsum hOK hRN
    simpa [List.range'] using hOK
  | succ cnt ih =>
    intro l0 tbl hl0 hsum hOK hRN
    rw [List.range'_succ]
    simp only [List.foldl_cons]
    have hstep := startPass_inv g tokens l0 hl0 (by omega) tbl hOK hRN
    exact ih (l0 + 1) _ (by omega) (by omega) hstep.1 hstep.2

/-- One base-case rule step preserves correctness (a matching terminal
rule writes a span-correct leaf into `P[0][s][v]`). -/
theorem termStep_inv (g : BaseGrammar) (tokens : List Token) (tok : Token)
    (s v : Nat) (production : Production) (rule : Rhs) (tbl : Tbl)
    (hst : tokens[s]? = some tok)
    (hv : g.productions[v]? = some production)
    (hrule : rule ∈ production.rhs)
    (hOK : CellOK g tokens tbl) (hRN : RowsNone tbl 2) :
    CellOK g tokens (termStep tokens.length g.productions.length tok s v
      production.lhs tbl rule) ∧
    RowsNone (termStep tokens.length g.productions.length tok s v
      production.lhs tbl rule) 2 := by
  cases rule with
  | binary ann B C w => exact ⟨hOK, hRN⟩
  | terminal tt w =>
    simp only [termStep]
    by_cases hm : tok.token_type == tt
    · rw [if_pos hm]
      have hmeq : tok.token_type = tt := beq_iff_eq.mp hm
      have hs_lt : s < tokens.length := (List.getElem?_eq_some.mp hst).1
      have hv_lt : v < g.productions.length := (List.getElem?_eq_some.mp hv).1
      have hpy0 : pyIndex tokens.length 0 = some 0 := by
        simpa using pyIndex_ofNat tokens.length 0 (by omega)
      have hpys : pyIndex tokens.length ((s : Nat) : Int) = some s :=
        pyIndex_ofNat tokens.length s hs_lt
      have hdrop : tokens.drop s = tok :: tokens.drop (s + 1) := by
        rw [List.drop_eq_getElem_cons hs_lt]
        have hg := List.getElem?_eq_getElem hs_lt
        rw [hg] at hst
        rw [Option.some.inj hst]
      constructor
      · intro i j k node hcell hin
        rw [tset_apply _ _ tbl _ _ v _ 0 s hpy0 hpys hv_lt] at hcell
        by_cases hsame : i = 0 ∧ j = s ∧ k = v
        · obtain ⟨hi, hj, hk⟩ := hsame
          subst hi; subst hj; subst hk
          rw [if_pos ⟨rfl, rfl, rfl⟩] at hcell
          rw [← Option.some.inj hcell]
          refine ⟨?_, production, hv, mkCykNode_symbol _ _ _ _ _ _, ?_⟩
          · rw [inOrderTokens_mk_leaf, hdrop]
            rfl
          · rw [hdrop]
            exact Derives.terminal production tt w tok (List.getElem?_mem hv) hrule hmeq
        · rw [if_neg hsame] at hcell
          exact hOK i j k node hcell hin
      · intro i j k hi
        rw [tset_apply _ _ tbl _ _ v _ 0 s hpy0 hpys hv_lt]
        by_cases hsame : i = 0 ∧ j = s ∧ k = v
        · exfalso; obtain ⟨hieq, _, _⟩ := hsame; omega
        · rw [if_neg hsame]
          exact hRN i j k hi
    · rw [if_neg hm]
      exact ⟨hOK, hRN⟩

/-- After the base case, every filled cell is a span-correct leaf and
all span lengths `≥ 2` are empty. -/
theorem basePass_inv (g : BaseGrammar) (tokens : List Token) :
    CellOK g tokens (basePass g tokens emptyTbl) ∧
    RowsNone (basePass g tokens emptyTbl) 2 := by
  unfold basePass
  refine @List.foldlRecOn _ _
    (fun t => CellOK g tokens t ∧ RowsNone t 2)
    tokens.enum _ emptyTbl ⟨?_, ?_⟩ ?_
  · intro i j k node h hin
    cases h
  · intro i j k hi
    rfl
  · intro t ht st hst
    obtain ⟨s, tok⟩ := st
    have hse : tokens[s]? = some tok := List.mk_mem_enum_iff_getElem?.mp hst
    refine @List.foldlRecOn _ _
      (fun t => CellOK g tokens t ∧ RowsNone t 2)
      g.productions.enum _ t ht ?_
    intro t2 ht2 vp hvp
    obtain ⟨v, production⟩ := vp
    have hve : g.productions[v]? = some production :=
      List.mk_mem_enum_iff_getElem?.mp hvp
    refine @List.foldlRecOn _ _
      (fun t => CellOK g tokens t ∧ RowsNone t 2)
      production.rhs _ t2 ht2 ?_
    intro t3 ht3 rule hrule
    exact termStep_inv g tokens tok s v production rule t3 hse hve hrule ht3.1 ht3.2

/-- The fully filled CYK table is correct on every in-range cell. -/
theorem cykTable_cellOK (g : BaseGrammar) (tokens : List Token) :
    CellOK g tokens (cykTable g tokens) := by
  unfold cykTable lenPass
  have hbase := basePass_inv g tokens
  rcases Nat.eq_zero_or_pos tokens.length with h0 | h1
  · rw [h0]
    simpa [List.range'] using hbase.1
  · exact lenPass_aux g tokens (tokens.length - 1) 2 _ le_rfl (by omega)
      hbase.1 hbase.2

/-- Soundness of `parse`: a returned tree carries exactly the input
tokens in order, and witnesses that the start symbol derives them. -/
theorem parse_sound (g : BaseGrammar) (tokens : List Token) (node : CykNode)
    (h : parse g tokens = some node) :
    inOrderTokens node = tokens ∧ Derives g g.start tokens := by
  cases tokens with
  | nil => cases h
  | cons t ts =>
    have h2 : tget (t :: ts).length g.productions.length (cykTable g (t :: ts))
        (((t :: ts).length : Int) - 1) 0 (get_symbol_lookup g g.start) = some node := h
    rw [tget_eq_some] at h2
    obtain ⟨i2, j2, hi2, hj2, hk, hcell⟩ := h2
    have hn1 : 1 ≤ (t :: ts).length := by simp
    have hi2e : i2 = (t :: ts).length - 1 := by
      rw [pyIndex_sub_one _ _ hn1 le_rfl] at hi2
      exact (Option.some.inj hi2).symm
    have hj2e : j2 = 0 := by
      have hpy0 : pyIndex (t :: ts).length 0 = some 0 := by
        simpa using pyIndex_ofNat (t :: ts).length 0 (by omega)
      rw [hpy0] at hj2
      exact (Option.some.inj hj2).symm
    subst hi2e; subst hj2e
    obtain ⟨htok, production, hprod, hsym, hder⟩ :=
      cykTable_cellOK g (t :: ts) ((t :: ts).length - 1) 0
        (get_symbol_lookup g g.start) node hcell (by omega)
    have hfull : ((t :: ts).drop 0).take ((t :: ts).length - 1 + 1) = t :: ts := by
      rw [List.drop_zero, show (t :: ts).length - 1 + 1 = (t :: ts).length by omega,
        List.take_length]
    constructor
    · rw [htok, hfull]
    · have hstart : production.lhs = g.start := lookup_lhs g g.start production hprod
      rw [← hstart]
      rwa [hfull] at hder

/-! Reconstruction: the sliding window equals the pairwise separator rule. -/

theorem sepStr_spec (a b : Token) : sepStr a b = specSep a b ++ b.value := by
  unfold sepStr specSep WHITESPACE specIsWhitespace
  split
  · simp
  · rfl

theorem slideWindow_spec : ∀ (rest : List Token) (w0 w1 w2 : Token) (acc : String),
    ∃ a b c, (slideWindow [w0, w1, w2] rest acc).1 = [a, b, c] ∧
      (slideWindow [w0, w1, w2] rest acc).2 ++ sepStr b c =
        acc ++ joinRest w0 (w1 :: w2 :: rest) := by
  intro rest
  induction rest with
  | nil =>
    intro w0 w1 w2 acc
    refine ⟨w0, w1, w2, rfl, ?_⟩
    simp [slideWindow, joinRest, sepStr_spec, String.append_assoc]
  | cons t ts ih =>
    intro w0 w1 w2 acc
    have hpush : windowPush [w0, w1, w2] t = [w1, w2, t] := by
      simp [windowPush]
    have hstep : slideWindow [w0, w1, w2] (t :: ts) acc =
        slideWindow [w1, w2, t] ts (acc ++ sepStr w0 w1) := by
      rw [slideWindow, hpush]
    obtain ⟨a, b, c, hfw, hacc⟩ := ih w1 w2 t (acc ++ sepStr w0 w1)
    refine ⟨a, b, c, by rw [hstep]; exact hfw, ?_⟩
    rw [hstep, hacc, sepStr_spec]
    conv_rhs => rw [joinRest]
    simp [String.append_assoc]

theorem reconstruct_string_spec : ∀ (t : CykNode) (strictness : Int),
    t.reconstruct_string strictness = specJoin (inOrderTokens t) := by
  intro t strictness
  unfold CykNode.reconstruct_string
  cases hsrc : inOrderTokens t with
  | nil => rfl
  | cons t0 rest0 =>
    cases rest0 with
    | nil =>
      simp [slideWindow, specJoin, joinRest]
    | cons t1 rest1 =>
      cases rest1 with
      | nil =>
        simp [slideWindow, specJoin, joinRest, sepStr_spec, String.append_assoc]
      | cons t2 rest =>
        obtain ⟨a, b, c, hfw, hacc⟩ := slideWindow_spec rest t0 t1 t2 t0.value
        have htake : (t0 :: t1 :: t2 :: rest).take 3 = [t0, t1, t2] := rfl
        have hdrop : (t0 :: t1 :: t2 :: rest).drop 3 = rest := rfl
        simp only [htake, hdrop]
        rw [hfw]
        dsimp only
        rw [hacc]
        simp [specJoin, joinRest]

/-! Breadth-first walk visits the same nodes as the in-order walk. -/

theorem cyk_sizeOf_pos (t : CykNode) : 1 ≤ sizeOf t := by
  cases t with
  | node s lc rc v a w =>
    simp only [CykNode.node.sizeOf_spec]
    omega

theorem childList_sum_lt (q : CykNode) : ((childList q).map sizeOf).sum < sizeOf q := by
  cases q with
  | node s lc rc v a w =>
    cases lc <;> cases rc <;>
      simp [childList, CykNode.lchild, CykNode.rchild, Option.toList] <;> omega

theorem in_order_children (x : CykNode) :
    ∃ A B, x.in_order_traverse = A ++ [x] ++ B ∧
      (childList x).flatMap CykNode.in_order_traverse = A ++ B := by
  cases x with
  | node s lc rc v a w =>
    cases lc <;> cases rc <;>
      exact ⟨_, _, in_order_traverse_node _ _ _ _ _ _, by
        simp [childList, CykNode.lchild, CykNode.rchild, Option.toList]⟩

theorem bfwAux_perm : ∀ (m : Nat) (q : List CykNode), (q.map sizeOf).sum ≤ m →
    (bfwAux q).Perm (q.flatMap CykNode.in_order_traverse) := by
  intro m
  induction m with
  | zero =>
    intro q hq
    cases q with
    | nil => simp [bfwAux]
    | cons x rest =>
      exfalso
      have := cyk_sizeOf_pos x
      simp only [List.map_cons, List.sum_cons] at hq
      omega
  | succ m ih =>
    intro q hq
    cases q with
    | nil => simp [bfwAux]
    | cons x rest =>
      rw [bfwAux]
      obtain ⟨A, B, hio, hcl⟩ := in_order_children x
      have hsum : (((rest ++ childList x).map sizeOf).sum ≤ m) := by
        have h1 := childList_sum_lt x
        simp only [List.map_cons, List.sum_cons] at hq
        simp only [List.map_append, List.sum_append]
        omega
      have hih := ih (rest ++ childList x) hsum
      have heq : (rest ++ childList x).flatMap CykNode.in_order_traverse =
          rest.flatMap CykNode.in_order_traverse ++ (A ++ B) := by
        rw [List.flatMap_append, hcl]
      rw [heq] at hih
      refine (hih.cons x).trans ?_
      have hgoal : (x :: rest).flatMap CykNode.in_order_traverse =
          A ++ [x] ++ B ++ rest.flatMap CykNode.in_order_traverse := by
        simp only [List.flatMap_cons, hio]
      rw [hgoal]
      have h1 : (x :: (rest.flatMap CykNode.in_order_traverse ++ (A ++ B))).Perm
          (x :: (A ++ (B ++ rest.flatMap CykNode.in_order_traverse))) := by
        refine List.Perm.cons x ?_
        have hc : (rest.flatMap CykNode.in_order_traverse ++ (A ++ B)).Perm
            ((A ++ B) ++ rest.flatMap CykNode.in_order_traverse) :=
          List.perm_append_comm
        simpa [List.append_assoc] using hc
      refine h1.trans ?_
      have h2 : A ++ [x] ++ B ++ rest.flatMap CykNode.in_order_traverse =
          A ++ x :: (B ++ rest.flatMap CykNode.in_order_traverse) := by
        simp [List.append_assoc]
      rw [h2]
      exact List.perm_middle.symm

theorem breadth_first_walk_perm (t : CykNode) :
    (t.breadth_first_walk).Perm t.in_order_traverse := by
  have := bfwAux_perm (([t].map sizeOf).sum) [t] le_rfl
  simpa [CykNode.breadth_first_walk] using this

/-! Line numbers on full binary trees with valued leaves. -/

theorem wfFull_tokens_ne : ∀ t : CykNode, wfFull t = true → inOrderTokens t ≠ [] := by
  intro t
  induction t using CykNode.my_ind with
  | h sym lc rc v a w ihl ihr =>
    intro hwf
    cases lc with
    | none =>
      cases rc with
      | none =>
        cases v with
        | none => simp [wfFull] at hwf
        | some tok => simp [inOrderTokens_node]
      | some r => simp [wfFull] at hwf
    | some l =>
      cases rc with
      | none => simp [wfFull] at hwf
      | some r =>
        cases v with
        | some tok => simp [wfFull] at hwf
        | none =>
          rw [wfFull] at hwf
          simp only [Bool.and_eq_true] at hwf
          have hl := ihl l rfl hwf.1
          rw [inOrderTokens_node]
          simp only [List.append_nil]
          intro hcontra
          rw [List.append_eq_nil] at hcontra
          exact hl hcontra.1

theorem line_numbers_aux : ∀ t : CykNode, wfFull t = true → ∀ recurse : Nat,
    t.height + recurse ≤ MAX_TREE_HEIGHT →
    t.get_line_numbers_cached recurse = (firstTerminalLine t, lastTerminalLine t) := by
  intro t
  induction t using CykNode.my_ind with
  | h sym lc rc v a w ihl ihr =>
    intro hwf recurse hh
    have hnr : ¬ (recurse > MAX_TREE_HEIGHT) := by omega
    cases lc with
    | none =>
      cases rc with
      | none =>
        cases v with
        | none => simp [wfFull] at hwf
        | some tok =>
          rw [CykNode.get_line_numbers_cached, if_neg hnr]
          simp [firstTerminalLine, lastTerminalLine, inOrderTokens_node]
      | some r => simp [wfFull] at hwf
    | some l =>
      cases rc with
      | none => simp [wfFull] at hwf
      | some r =>
        cases v with
        | some tok => simp [wfFull] at hwf
        | none =>
          rw [wfFull] at hwf
          simp only [Bool.and_eq_true] at hwf
          have hheight : (CykNode.node sym (some l) (some r) none a w).height =
              1 + max l.height r.height := rfl
          have hl := ihl l rfl hwf.1 (recurse + 1) (by rw [hheight] at hh; omega)
          have hr := ihr r rfl hwf.2 (recurse + 1) (by rw [hheight] at hh; omega)
          rw [CykNode.get_line_numbers_cached, if_neg hnr]
          dsimp only
          rw [hl, hr]
          have hlne := wfFull_tokens_ne l hwf.1
          have hrne := wfFull_tokens_ne r hwf.2
          have htoks : inOrderTokens (CykNode.node sym (some l) (some r) none a w) =
              inOrderTokens l ++ inOrderTokens r := by
            rw [inOrderTokens_node]
            simp
          simp only [Prod.mk.injEq]
          constructor
          · unfold firstTerminalLine
            rw [htoks]
            cases hl2 : inOrderTokens l with
            | nil => exact absurd hl2 hlne
            | cons x xs => simp
          · unfold lastTerminalLine
            rw [htoks, List.getLast?_append]
            cases hr2 : (inOrderTokens r).getLast? with
            | none => exact absurd (List.getLast?_eq_none_iff.mp hr2) hrne
            | some x => simp

/-! The claims. -/

/-- C1: For every grammar and every nonempty token sequence on which
`parse` returns a tree, collecting the `terminalValue` of each leaf in
the order produced by `in_order_traverse` yields exactly the input token
sequence, in the original order. -/
theorem c1_parse_order_preservation :
    ∀ (g : BaseGrammar) (tokens : List Token) (node : CykNode),
      parse g tokens = some node → inOrderTokens node = tokens :=
  fun g tokens node h => (parse_sound g tokens node h).1

theorem c1_parse_order_preservation_witness :
    inOrderTokens specTree = [tokAlpha, tokBeta] :=
  c1_parse_order_preservation specG [tokAlpha, tokBeta] specTree (by rfl)

/-- C3 (code evaluated at the failing input): with a grammar holding a
binary rule and two tokens, the inductive case reads the table at the
raw index pair `(-1, -1)` — at `l = 2`, `s = 0`, `p = 0` the lookup
`P[p-1][s-1][b]` evaluates both indices to `-1`, which Python wraps to
the last row and column instead of staying inside the declared ranges. -/
theorem c3_negative_index_read :
    ((-1 : Int), (-1 : Int)) ∈ inductiveReadIndices specG [tokAlpha, tokBeta] := by
  decide

/-- C4: `parse` returns none on empty input; on nonempty input it
returns exactly the table entry for the start symbol over the full span
(spanLength `n`, start `0`); and whenever it returns a tree, the start
symbol derives the tokens — so unparseable input yields none rather
than an error. -/
theorem c4_parse_result :
    ∀ (g : BaseGrammar) (tokens : List Token),
      parse g [] = none ∧
      (tokens ≠ [] → parse g tokens =
        tget tokens.length g.productions.length (cykTable g tokens)
          ((tokens.length : Int) - 1) 0 (get_symbol_lookup g g.start)) ∧
      (∀ node, parse g tokens = some node → Derives g g.start tokens) := by
  intro g tokens
  refine ⟨rfl, ?_, ?_⟩
  · intro hne
    cases tokens with
    | nil => exact absurd rfl hne
    | cons t ts => rfl
  · intro node h
    exact (parse_sound g tokens node h).2

theorem c4_parse_result_witness :
    parse specG [] = none ∧
    parse specG [tokAlpha, tokBeta] =
      tget [tokAlpha, tokBeta].length specG.productions.length
        (cykTable specG [tokAlpha, tokBeta])
        (([tokAlpha, tokBeta].length : Int) - 1) 0
        (get_symbol_lookup specG specG.start) ∧
    Derives specG specG.start [tokAlpha, tokBeta] :=
  ⟨(c4_parse_result specG [tokAlpha, tokBeta]).1,
   (c4_parse_result specG [tokAlpha, tokBeta]).2.1 (by decide),
   (c4_parse_result specG [tokAlpha, tokBeta]).2.2 specTree (by rfl)⟩

/-- C5: the weight stored by the constructor equals the explicit weight
when non-zero, and otherwise `max(0, left weight, right weight)`; in
particular a node built without an explicit weight is at least as heavy
as each of its children. -/
theorem c5_weight_resolution :
    ∀ (symbol : String) (lchild rchild : Option CykNode) (value : Option Token)
      (annotations : List String) (weight : Int),
      ((mkCykNode symbol lchild rchild value annotations weight).weight =
        if weight ≠ 0 then weight
        else max 0 (max (match lchild with | some l => l.weight | none => 0)
                        (match rchild with | some r => r.weight | none => 0))) ∧
      (weight = 0 →
        (∀ l, lchild = some l →
          l.weight ≤ (mkCykNode symbol lchild rchild value annotations weight).weight) ∧
        (∀ r, rchild = some r →
          r.weight ≤ (mkCykNode symbol lchild rchild value annotations weight).weight)) := by
  intro symbol lchild rchild value annotations weight
  refine ⟨mkCykNode_weight symbol lchild rchild value annotations weight, ?_⟩
  intro h0
  have hif : (if weight ≠ 0 then weight
      else max 0 (max (match lchild with | some l => l.weight | none => 0)
                      (match rchild with | some r => r.weight | none => 0))) =
      max 0 (max (match lchild with | some l => l.weight | none => 0)
                 (match rchild with | some r => r.weight | none => 0)) := by
    simp [h0]
  constructor
  · intro l hl
    rw [mkCykNode_weight, hif, hl]
    exact le_trans (le_max_left _ _) (le_max_right _ _)
  · intro r hr
    rw [mkCykNode_weight, hif, hr]
    exact le_trans (le_max_right _ _) (le_max_right _ _)

theorem c5_weight_resolution_witness :
    specLeafA.weight ≤ (mkCykNode "X" (some specLeafA) (some specLeafB) none [] 0).weight :=
  ((c5_weight_resolution "X" (some specLeafA) (some specLeafB) none [] 0).2 rfl).1
    specLeafA rfl

/-- C6 (code evaluated at the failing input): structural equality is
not symmetric — a leafless valueless node compares equal to a node of
the same symbol that has a left child, but not the other way around. -/
theorem c6_equals_asymmetry :
    eqNodeA.equals (some eqNodeB) = true ∧ eqNodeB.equals (some eqNodeA) = false := by
  decide

/-- C7: for every subtree and every strictness argument,
`reconstruct_string` concatenates the in-order terminals, separating
two consecutive terminals by nothing when either is structural
whitespace (INDENT or NEWLINE) or the right one is a colon, and by one
space otherwise; a subtree without terminals gives the empty string. -/
theorem c7_reconstruct_pairwise :
    ∀ (t : CykNode) (strictness : Int),
      t.reconstruct_string strictness = specJoin (inOrderTokens t) :=
  reconstruct_string_spec

/-- C8 counterexample: on the terminals `foo`, colon, `bar` the code
returns `"foo: bar"` — the colon rule suppresses only the space before
a colon, not the space after it — so the claimed `"foo:bar"` is wrong. -/
theorem c8_colon_counterexample :
    treeFooColonBar.reconstruct_string 0 = "foo: bar" ∧
    treeFooColonBar.reconstruct_string 0 ≠ "foo:bar" := by
  decide

/-- C8 (amended): `foo bar baz` reconstructs with single spaces; `foo`,
colon, `bar` reconstructs to `"foo: bar"` (no space before the colon,
one space after it). -/
theorem c8_reconstruct_examples :
    ∀ strictness : Int,
      treeFooBarBaz.reconstruct_string strictness = "foo bar baz" ∧
      treeFooColonBar.reconstruct_string strictness = "foo: bar" :=
  fun _ => ⟨rfl, rfl⟩

/-- C9 counterexample: a node with only a right child is within the
depth ceiling, yet `line_numbers` reports `-1` as the first line even
though the first in-order terminal lies on line 5. -/
theorem c9_right_only_counterexample :
    rightOnlyTree.height ≤ MAX_TREE_HEIGHT ∧
    rightOnlyTree.line_numbers ≠
      (firstTerminalLine rightOnlyTree, lastTerminalLine rightOnlyTree) := by
  decide

/-- C9 (amended): on trees whose nodes are either valued leaves or
internal nodes with both children, and whose height stays within the
ceiling of 300, `line_numbers` is the pair of the first and last
in-order terminal's line numbers; and any recursive call at depth
beyond the ceiling returns the sentinel `(-1, -1)` instead of recursing
further. -/
theorem c9_line_numbers :
    ∀ t : CykNode,
      (wfFull t = true → t.height ≤ MAX_TREE_HEIGHT →
        t.line_numbers = (firstTerminalLine t, lastTerminalLine t)) ∧
      (∀ recurse : Nat, recurse > MAX_TREE_HEIGHT →
        t.get_line_numbers_cached recurse = (-1, -1)) := by
  intro t
  constructor
  · intro hwf hh
    exact line_numbers_aux t hwf 0 (by omega)
  · intro recurse hr
    cases t with
    | node sym lc rc v a w =>
      rw [CykNode.get_line_numbers_cached.eq_def]
      dsimp only
      rw [if_pos hr]

theorem c9_line_numbers_witness :
    treeFooBarBaz.line_numbers =
      (firstTerminalLine treeFooBarBaz, lastTerminalLine treeFooBarBaz) ∧
    treeFooBarBaz.get_line_numbers_cached 301 = (-1, -1) :=
  ⟨(c9_line_numbers treeFooBarBaz).1 (by decide) (by decide),
   (c9_line_numbers treeFooBarBaz).2 301 (by decide)⟩

/-- C10: `contains` answers true exactly when `first_instance` finds a
node, because the in-order walk behind `contains` and the breadth-first
walk behind `first_instance` enumerate the same nodes, each exactly
once (the two walks are permutations of one another). -/
theorem c10_contains_first_instance :
    ∀ (t : CykNode) (symbol : String),
      (t.contains symbol = true ↔ (t.first_instance symbol).isSome = true) ∧
      (t.breadth_first_walk).Perm t.in_order_traverse := by
  intro t symbol
  have hperm := breadth_first_walk_perm t
  refine ⟨?_, hperm⟩
  rw [CykNode.contains, CykNode.first_instance, CykNode.walk,
    List.any_eq_true, List.find?_isSome]
  constructor
  · rintro ⟨x, hx, hpx⟩
    exact ⟨x, hperm.mem_iff.mpr hx, hpx⟩
  · rintro ⟨x, hx, hpx⟩
    exact ⟨x, hperm.mem_iff.mp hx, hpx⟩

/-- C2 counterexample: a production whose terminal rules for the same
category carry weights 5 then 1 retains the weight-1 leaf — the base
case overwrites unconditionally, so the later rule wins regardless of
weight, not the highest-weight rule. -/
theorem c2_base_case_counterexample :
    (parse cexG2 [tokAlpha]).map CykNode.weight = some 1 ∧
    (parse cexG2 [tokAlpha]).map CykNode.weight ≠ some 5 := by
  decide

/-- C2 (amended): in the base case the cell ends up holding the leaf of
the last-evaluated matching terminal rule, regardless of the weights of
earlier matches; in the inductive case a candidate with both children
present is discarded exactly when the existing entry's weight strictly
exceeds the candidate's rule weight, and otherwise (ties included)
overwrites the entry. -/
theorem c2_retention_policy :
    (∀ (n r : Nat) (tok : Token) (s v : Nat) (lhs : String) (rules : List Rhs) (tbl : Tbl),
      s < n → v < r →
      (rules.foldl (termStep n r tok s v lhs) tbl) 0 s v =
        (match lastTerminalMatch rules tok.token_type with
         | some w => some (mkCykNode lhs none none (some tok) [] w)
         | none => tbl 0 s v)) ∧
    (∀ (n r : Nat) (lookup : String → Nat) (l s p a : Nat) (lhs : String) (tbl : Tbl)
       (ann : List String) (B C : String) (w : Int) (lc rc : CykNode),
      1 ≤ l → l ≤ n → s ≤ n → a < r →
      tget n r tbl ((p : Int) - 1) ((s : Int) - 1) (lookup B) = some lc →
      tget n r tbl ((l : Int) - (p : Int) - 1) ((s : Int) + (p : Int) - 1) (lookup C) =
        some rc →
      tget n r (derivStep n r lookup l s p a lhs tbl (Rhs.binary ann B C w))
          ((l : Int) - 1) ((s : Int) - 1) a =
        (match tget n r tbl ((l : Int) - 1) ((s : Int) - 1) a with
         | some old =>
           if old.weight > w then some old
           else some (mkCykNode lhs (some lc) (some rc) none ann w)
         | none => some (mkCykNode lhs (some lc) (some rc) none ann w))) := by
  constructor
  · intro n r tok s v lhs rules
    induction rules with
    | nil =>
      intro tbl hs hv
      rfl
    | cons rule rest ih =>
      intro tbl hs hv
      rw [List.foldl_cons, ih (termStep n r tok s v lhs tbl rule) hs hv]
      have hpy0 : pyIndex n 0 = some 0 := by
        simpa using pyIndex_ofNat n 0 (by omega)
      have hpys : pyIndex n ((s : Nat) : Int) = some s := pyIndex_ofNat n s hs
      simp only [lastTerminalMatch, List.foldr_cons]
      cases hlm : List.foldr
          (fun rule acc =>
            match acc with
            | some w => some w
            | none =>
              match rule with
              | Rhs.terminal t w => if tok.token_type == t then some w else none
              | Rhs.binary _ _ _ _ => none)
          none rest with
      | some w =>
        rfl
      | none =>
        dsimp only
        cases rule with
        | binary ann B C w => rfl
        | terminal t2 w2 =>
          simp only [termStep]
          by_cases hm : tok.token_type == t2
          · rw [if_pos hm]
            rw [tset_apply n r tbl 0 ((s : Nat) : Int) v _ 0 s hpy0 hpys hv,
              if_pos ⟨rfl, rfl, rfl⟩]
            rw [if_pos hm]
          · rw [if_neg hm]
            rw [if_neg hm]
  · intro n r lookup l s p a lhs tbl ann B C w lc rc hl1 hln hsn ha hlc hrc
    have hn1 : 1 ≤ n := le_trans hl1 hln
    have hpyrow : pyIndex n ((l : Int) - 1) = some (l - 1) :=
      pyIndex_sub_one n l hl1 hln
    obtain ⟨j2, hpycol⟩ : ∃ j2, pyIndex n ((s : Int) - 1) = some j2 := by
      rcases Nat.eq_zero_or_pos s with h0 | h1
      · subst h0
        exact ⟨n - 1, by simpa using pyIndex_neg_one n hn1⟩
      · exact ⟨s - 1, pyIndex_sub_one n s h1 hsn⟩
    simp only [derivStep]
    rw [hlc, hrc]
    dsimp only
    cases hold : tget n r tbl ((l : Int) - 1) ((s : Int) - 1) a with
    | some old =>
      dsimp only
      by_cases hw : old.weight > w
      · simp only [if_pos hw]
        exact hold
      · simp only [if_neg hw]
        rw [tget_idx n r _ _ _ a (l - 1) j2 hpyrow hpycol, if_pos ha,
          tset_apply n r tbl _ _ a _ (l - 1) j2 hpyrow hpycol ha,
          if_pos ⟨rfl, rfl, rfl⟩]
    | none =>
      dsimp only
      rw [tget_idx n r _ _ _ a (l - 1) j2 hpyrow hpycol, if_pos ha,
        tset_apply n r tbl _ _ a _ (l - 1) j2 hpyrow hpycol ha,
        if_pos ⟨rfl, rfl, rfl⟩]

theorem c2_retention_policy_witness :
    (([Rhs.terminal TokenType.WORD 5, Rhs.terminal TokenType.WORD 1].foldl
        (termStep 1 1 tokAlpha 0 0 "S") emptyTbl) 0 0 0 =
      (match lastTerminalMatch [Rhs.terminal TokenType.WORD 5, Rhs.terminal TokenType.WORD 1]
          tokAlpha.token_type with
       | some w => some (mkCykNode "S" none none (some tokAlpha) [] w)
       | none => emptyTbl 0 0 0)) ∧
    (tget 2 3 (derivStep 2 3 (get_symbol_lookup specG) 2 1 1 0 "S" pairTbl
        (Rhs.binary [] "A" "B" 5)) ((2 : Int) - 1) ((1 : Int) - 1) 0 =
      (match tget 2 3 pairTbl ((2 : Int) - 1) ((1 : Int) - 1) 0 with
       | some old =>
         if old.weight > 5 then some old
         else some (mkCykNode "S" (some specLeafA) (some specLeafB) none [] 5)
       | none => some (mkCykNode "S" (some specLeafA) (some specLeafB) none [] 5))) :=
  ⟨c2_retention_policy.1 1 1 tokAlpha 0 0 "S"
      [Rhs.terminal TokenType.WORD 5, Rhs.terminal TokenType.WORD 1] emptyTbl
      (by decide) (by decide),
   c2_retention_policy.2 2 3 (get_symbol_lookup specG) 2 1 1 0 "S" pairTbl
      [] "A" "B" 5 specLeafA specLeafB
      (by decide) (by decide) (by decide) (by decide) (by rfl) (by rfl)⟩
